import Mathlib

/-!
Verification of the configuration-schematics utilities
(`packages/schematics/src/utils.ts`): JSON documents, the virtual file
tree, path normalization, ESLint config builders, and the workspace
helpers built on top of them.
-/

set_option maxHeartbeats 1000000

namespace AngularEslint

/-- JSON values, modelling the dynamic JSON documents the utilities
manipulate.  Object entries keep insertion order, as JavaScript objects
do; numbers are modelled as integers (the configuration documents only
contain integers). -/
inductive Json where
  | null
  | bool (b : Bool)
  | num (n : Int)
  | str (s : String)
  | arr (elems : List Json)
  | obj (entries : List (String × Json))

/-- First-match lookup of a key in an object's entry list, modelling
JavaScript property access `o[k]` (JS objects have unique keys, so
first-match agrees with JS on every well-formed object). -/
def lookupPairs : List (String × Json) → String → Option Json
  | [], _ => none
  | (k, v) :: rest, key => if k = key then some v else lookupPairs rest key

/-- Property assignment `o[k] = v` on an object's entry list: if the key
is present its value is replaced in place (insertion order preserved),
otherwise the new entry is appended at the end, as in JavaScript. -/
def setKeyPairs (l : List (String × Json)) (key : String) (v : Json) : List (String × Json) :=
  if l.any (fun p => p.1 = key) then
    l.map (fun p => if p.1 = key then (p.1, v) else p)
  else
    l ++ [(key, v)]

/-- Property access on a JSON value: `some` value for a present key of an
object, `none` (JavaScript `undefined`) otherwise. -/
def Json.getKey : Json → String → Option Json
  | .obj entries, key => lookupPairs entries key
  | _, _ => none

/-- Property assignment on a JSON value (no-op on non-objects). -/
def Json.setKey : Json → String → Json → Json
  | .obj entries, key, v => .obj (setKeyPairs entries key v)
  | j, _, _ => j

/-- Array indexing `a[i]` on a JSON value. -/
def Json.item : Json → Nat → Option Json
  | .arr elems, i => elems.get? i
  | _, _ => none

/-- Path access: successive `Json.getKey` steps. -/
def Json.getPath (j : Json) : List String → Option Json
  | [] => some j
  | k :: rest =>
    match j.getKey k with
    | some v => v.getPath rest
    | none => none

/-- Helper for `splitSlash`: accumulates the current fragment (reversed). -/
def splitSlashAux : List Char → List Char → List String
  | [], acc => [String.mk acc.reverse]
  | c :: rest, acc =>
    if c = '/' then String.mk acc.reverse :: splitSlashAux rest []
    else splitSlashAux rest (c :: acc)

/-- Model of JavaScript `s.split('/')`: splits at every slash; the empty
string splits into `[""]`, and a leading slash produces an empty leading
fragment. -/
def splitSlash (s : String) : List String := splitSlashAux s.data []

/-- Joins a list of strings with a separator (JavaScript `Array.join`). -/
def joinSep (sep : String) : List String → String
  | [] => ""
  | [x] => x
  | x :: y :: rest => x ++ sep ++ joinSep sep (y :: rest)

/-- A string repeated `n` times. -/
def repeatStr : Nat → String → String
  | 0, _ => ""
  | n + 1, s => s ++ repeatStr n s

/-- Fragment resolution used by the `normalize` model: drops empty and
`.` fragments and resolves `..` against the preceding fragment (kept for
relative paths with nothing left to pop, dropped at the root of an
absolute path).  The accumulator is kept reversed. -/
def resolveFragments : Bool → List String → List String → List String
  | _, acc, [] => acc.reverse
  | abs, acc, f :: rest =>
    if f = "" || f = "." then resolveFragments abs acc rest
    else if f = ".." then
      match acc with
      | [] => if abs then resolveFragments abs [] rest else resolveFragments abs [".."] rest
      | a :: tl =>
        if a = ".." then resolveFragments abs (".." :: a :: tl) rest
        else resolveFragments abs tl rest
    else resolveFragments abs (f :: acc) rest

/-- Model of `normalize` from `@angular-devkit/core` (an external
dependency of the repository): `""` and `"."` normalize to `""`; other
paths are split at slashes, `.` and empty fragments are dropped, `..`
fragments are resolved against the preceding fragment, a leading slash
is preserved and a trailing slash is dropped.  Already-normal paths such
as `"a/b"` or `"/a/b"` are returned unchanged. -/
def normalize (p : String) : String :=
  if p = "" || p = "." then ""
  else
    let abs : Bool :=
      match p.data with
      | '/' :: _ => true
      | _ => false
    let frags := resolveFragments abs [] (splitSlash p)
    if abs then "/" ++ joinSep "/" frags else joinSep "/" frags

/-- The function `offsetFromRoot` from `utils.ts`: splits the normalized path at
slashes and appends `"../"` once per resulting part. -/
def offsetFromRoot (fullPathToSourceDir : String) : String :=
  (splitSlash (normalize fullPathToSourceDir)).foldl (fun offset _ => offset ++ "../") ""

/-- A single hexadecimal digit (lower case), for control-character
escapes. -/
def hexDigit (n : Nat) : String := String.mk [Nat.digitChar n]

/-- JSON string-character escaping as performed by `JSON.stringify`:
quote, backslash and control characters are escaped, everything else is
emitted verbatim. -/
def quoteChar (c : Char) : String :=
  if c = '"' then "\\\""
  else if c = '\\' then "\\\\"
  else if c = '\n' then "\\n"
  else if c = '\r' then "\\r"
  else if c = '\t' then "\\t"
  else if c.toNat = 8 then "\\b"
  else if c.toNat = 12 then "\\f"
  else if c.toNat < 32 then "\\u00" ++ hexDigit (c.toNat / 16) ++ hexDigit (c.toNat % 16)
  else String.mk [c]

/-- A JSON string literal: the escaped characters between double
quotes. -/
def quoteJsonString (s : String) : String :=
  "\"" ++ String.join (s.data.map quoteChar) ++ "\""

/-- Model of `JSON.stringify(json, null, 2)` (JavaScript built-in used
by `serializeJson` in `utils.ts`): pretty-prints with two-space
indentation, `ind` being the indentation accumulated so far.  Empty
arrays and objects print inline as `[]` and as an empty brace pair. -/
def jsonStringify (ind : String) (j : Json) : String :=
  match j with
  | .null => "null"
  | .bool b => if b then "true" else "false"
  | .num n => toString n
  | .str s => quoteJsonString s
  | .arr [] => "[]"
  | .arr (x :: xs) =>
    "[\n" ++ joinSep ",\n" ((x :: xs).attach.map (fun e =>
        ind ++ "  " ++ jsonStringify (ind ++ "  ") e.1))
      ++ "\n" ++ ind ++ "]"
  | .obj [] => "\x7b\x7d"
  | .obj (kv :: kvs) =>
    "\x7b\n" ++ joinSep ",\n" ((kv :: kvs).attach.map (fun e =>
        ind ++ "  " ++ quoteJsonString e.1.1 ++ ": " ++ jsonStringify (ind ++ "  ") e.1.2))
      ++ "\n" ++ ind ++ "\x7d"
termination_by sizeOf j
decreasing_by
  · have h1 := List.sizeOf_lt_of_mem e.2
    simp only [Json.arr.sizeOf_spec]
    omega
  · have h1 := List.sizeOf_lt_of_mem e.2
    have h2 : sizeOf e.1.2 < sizeOf e.1 := by
      rcases e with ⟨⟨a, b⟩, hm⟩
      simp only [Prod.mk.sizeOf_spec]
      omega
    simp only [Json.obj.sizeOf_spec]
    omega

/-- The function `serializeJson` from `utils.ts`: `JSON.stringify(json, null, 2)`
followed by a trailing newline. -/
def serializeJson (json : Json) : String := jsonStringify "" json ++ "\n"

/-- The virtual file tree (`Tree` of `@angular-devkit/schematics`),
modelled as an association list from file path to file contents. -/
abbrev VTree := List (String × String)

/-- Model of `host.read(path)`: contents of the file at `path`, if present. -/
def treeRead : VTree → String → Option String
  | [], _ => none
  | (p, c) :: rest, path => if p = path then some c else treeRead rest path

/-- Model of `host.exists(path)`. -/
def treeExists (host : VTree) (path : String) : Bool := (treeRead host path).isSome

/-- Model of `host.create(path, contents)`: adds a new file (the schematics
engine only allows this when the path does not already exist). -/
def treeCreate (host : VTree) (path contents : String) : VTree :=
  host ++ [(path, contents)]

/-- Model of `host.overwrite(path, contents)`: replaces the contents of an
existing file. -/
def treeOverwrite (host : VTree) (path contents : String) : VTree :=
  host.map (fun pc => if pc.1 = path then (pc.1, contents) else pc)

/-- The errors thrown by the utilities, keeping the data of each throw
site; `TreeError.message` renders the exact `Error` message the source
constructs. -/
inductive TreeError where
  | notFound (path : String)
  | parseError (path : String) (msg : String)
  | notFoundProject (name : String)
  | typeError

/-- The message of each thrown `Error`, exactly as formatted in
`utils.ts` (`typeError` stands for the JavaScript `TypeError` raised by
a property access on `undefined`). -/
def TreeError.message : TreeError → String
  | .notFound path => "Cannot find " ++ path
  | .parseError path msg => "Cannot parse " ++ path ++ ": " ++ msg
  | .notFoundProject name => "Cannot find project '" ++ name ++ "'"
  | .typeError => "TypeError"

/-- The function `readJsonInTree` from `utils.ts`, parameterized over the external
collaborators `strip` (the `strip-json-comments` package) and `parse`
(the JavaScript `JSON.parse` built-in): absent path throws
`Cannot find <path>`; otherwise the comment-stripped contents are
parsed, a parse failure throwing `Cannot parse <path>: <message>`.
The source guards with `host.exists` and then reads with a non-null
assertion; here the read result itself is matched, which coincides
because `exists` is definitionally `(read).isSome`. -/
def readJsonInTree (strip : String → String) (parse : String → Except String Json)
    (host : VTree) (path : String) : Except TreeError Json :=
  match treeRead host path with
  | none => .error (.notFound path)
  | some raw =>
    match parse (strip raw) with
    | .ok j => .ok j
    | .error msg => .error (.parseError path msg)

/-- The function `updateJsonInTree` from `utils.ts` (the rule returned by it, applied
to a tree and a schematic context): creates the file from
`callback({}, context)` when the path is absent, otherwise overwrites it
with `callback(currentJson, context)`; in both cases the result is
serialized by `serializeJson`.  A parse failure inside `readJsonInTree`
propagates. -/
def updateJsonInTree {Ctx : Type} (strip : String → String)
    (parse : String → Except String Json) (path : String)
    (callback : Json → Ctx → Json) (host : VTree) (context : Ctx) :
    Except TreeError VTree :=
  if treeExists host path then
    match readJsonInTree strip parse host path with
    | .error e => .error e
    | .ok json => .ok (treeOverwrite host path (serializeJson (callback json context)))
  else
    .ok (treeCreate host path (serializeJson (callback (Json.obj []) context)))

/-- The function `getWorkspacePath` from `utils.ts`: filters the three candidate
paths by existence and takes element `[0]` of the result (JavaScript
`undefined`, i.e. `none`, when the filtered list is empty). -/
def getWorkspacePath (host : VTree) : Option String :=
  (["/workspace.json", "/angular.json", "/.angular.json"].filter
    (fun path => treeExists host path)).head?

/-- JavaScript string coercion of a possibly-`undefined` string:
`undefined` used where a string is expected becomes the literal string
`"undefined"` (this is what happens when `getWorkspacePath` finds no
candidate and its result is passed on as a path). -/
def jsStringOfOpt : Option String → String
  | none => "undefined"
  | some s => s

/-- JavaScript truthiness of a JSON value. -/
def jsTruthy : Json → Bool
  | .null => false
  | .bool b => b
  | .num n => n != 0
  | .str s => s != ""
  | .arr _ => true
  | .obj _ => true

/-- The function `getProjectConfig` from `utils.ts`: reads the workspace file found
by `getWorkspacePath` (an absent result coercing to the path
`"undefined"`), then looks up `projects[name]`, throwing
`Cannot find project '<name>'` when the entry is falsy and a
`TypeError` when the document has no `projects` object at all. -/
def getProjectConfig (strip : String → String) (parse : String → Except String Json)
    (host : VTree) (name : String) : Except TreeError Json :=
  match readJsonInTree strip parse host (jsStringOfOpt (getWorkspacePath host)) with
  | .error e => .error e
  | .ok workspaceJson =>
    match workspaceJson.getKey "projects" with
    | none => .error .typeError
    | some projects =>
      match projects.getKey name with
      | none => .error (.notFoundProject name)
      | some projectConfig =>
        if jsTruthy projectConfig then .ok projectConfig
        else .error (.notFoundProject name)

/-- The `offsetFromRoot` accumulation loop appends `"../"` once per list
element. -/
theorem foldl_pushOffset (l : List String) (s : String) :
    l.foldl (fun offset _ => offset ++ "../") s = s ++ repeatStr l.length "../" := by
  induction l generalizing s with
  | nil => simp [repeatStr, String.append_empty]
  | cons x xs ih => simp [List.foldl, ih, repeatStr, String.append_assoc]

/-- C1 counterexample: the claim asserts `offsetFromRoot "a/b" = "../../../"`,
but `"a/b"` normalizes to itself and splits into the two segments `"a"` and
`"b"`, so the code returns `"../../"`. -/
theorem C1_counterexample :
    offsetFromRoot "a/b" = "../../" ∧ offsetFromRoot "a/b" ≠ "../../../" := by
  constructor
  · decide
  · decide

/-- C1 (amended): `offsetFromRoot p` is `"../"` repeated once per path
segment of the normalized form of `p` (an empty leading segment produced
by a leading slash counts); in particular `offsetFromRoot "" = "../"`
and `offsetFromRoot "a/b" = "../../"`. -/
theorem C1_offsetFromRoot :
    (∀ p : String,
      offsetFromRoot p = repeatStr (splitSlash (normalize p)).length "../") ∧
    offsetFromRoot "" = "../" ∧ offsetFromRoot "a/b" = "../../" := by
  refine ⟨fun p => ?_, by decide, by decide⟩
  simpa [String.empty_append] using
    foldl_pushOffset (splitSlash (normalize p)) ""

/-- C2: `readJsonInTree` fails with the NotFound error (never a parse
error) when the path is absent; otherwise it parses the comment-stripped
contents and returns the parse result, a parse failure becoming the
Parse error carrying the path and the underlying message. -/
theorem C2_readJsonInTree (strip : String → String) (parse : String → Except String Json)
    (host : VTree) (path : String) :
    (treeExists host path = false →
      readJsonInTree strip parse host path = .error (.notFound path) ∧
      (TreeError.notFound path).message = "Cannot find " ++ path ∧
      ∀ msg, TreeError.notFound path ≠ TreeError.parseError path msg) ∧
    (∀ raw, treeRead host path = some raw →
      (∀ j, parse (strip raw) = .ok j → readJsonInTree strip parse host path = .ok j) ∧
      (∀ msg, parse (strip raw) = .error msg →
        readJsonInTree strip parse host path = .error (.parseError path msg) ∧
        (TreeError.parseError path msg).message = "Cannot parse " ++ path ++ ": " ++ msg)) := by
  constructor
  · intro h
    have hnone : treeRead host path = none := by
      unfold treeExists at h
      cases hr : treeRead host path with
      | none => rfl
      | some c => rw [hr] at h; simp at h
    refine ⟨?_, rfl, fun msg hmm => by cases hmm⟩
    unfold readJsonInTree
    rw [hnone]
  · intro raw hraw
    refine ⟨fun j hj => ?_, fun msg hmsg => ⟨?_, rfl⟩⟩
    · unfold readJsonInTree
      rw [hraw]
      simp [hj]
    · unfold readJsonInTree
      rw [hraw]
      simp [hmsg]

/-- C3: the rule built by `updateJsonInTree` creates the file from the
callback applied to the empty object when the path is absent, and
overwrites it with the callback applied to the parsed current contents
when present and parseable; serialization is two-space-indented JSON
plus a trailing newline. -/
theorem C3_updateJsonInTree {Ctx : Type} (strip : String → String)
    (parse : String → Except String Json) (path : String)
    (callback : Json → Ctx → Json) (host : VTree) (context : Ctx) :
    (treeExists host path = false →
      updateJsonInTree strip parse path callback host context =
        .ok (treeCreate host path (serializeJson (callback (Json.obj []) context)))) ∧
    (∀ raw json, treeRead host path = some raw → parse (strip raw) = .ok json →
      updateJsonInTree strip parse path callback host context =
        .ok (treeOverwrite host path (serializeJson (callback json context)))) ∧
    (∀ v, serializeJson v = jsonStringify "" v ++ "\n") := by
  refine ⟨?_, ?_, fun v => rfl⟩
  · intro h
    unfold updateJsonInTree
    simp [h]
  · intro raw json hraw hj
    have hex : treeExists host path = true := by
      unfold treeExists
      rw [hraw]
      rfl
    unfold updateJsonInTree readJsonInTree
    rw [hex]
    simp [hraw, hj]

/-- C4: the workspace locator tries `/workspace.json`, `/angular.json`,
`/.angular.json` in that order and returns the first existing one; when
none exists it returns `undefined`, and a downstream read
(`getProjectConfig`) fails with the NotFound error for the coerced path
`"undefined"`. -/
theorem C4_getWorkspacePath (strip : String → String) (parse : String → Except String Json)
    (host : VTree) (name : String) :
    (treeExists host "/workspace.json" = true →
      getWorkspacePath host = some "/workspace.json") ∧
    (treeExists host "/workspace.json" = false → treeExists host "/angular.json" = true →
      getWorkspacePath host = some "/angular.json") ∧
    (treeExists host "/workspace.json" = false → treeExists host "/angular.json" = false →
      treeExists host "/.angular.json" = true →
      getWorkspacePath host = some "/.angular.json") ∧
    (treeExists host "/workspace.json" = false → treeExists host "/angular.json" = false →
      treeExists host "/.angular.json" = false →
      getWorkspacePath host = none ∧
      (treeExists host "undefined" = false →
        getProjectConfig strip parse host name = .error (.notFound "undefined"))) := by
  refine ⟨?_, ?_, ?_, ?_⟩
  · intro h1
    simp [getWorkspacePath, List.filter, h1]
  · intro h1 h2
    simp [getWorkspacePath, List.filter, h1, h2]
  · intro h1 h2 h3
    simp [getWorkspacePath, List.filter, h1, h2, h3]
  · intro h1 h2 h3
    have hw : getWorkspacePath host = none := by
      simp [getWorkspacePath, List.filter, h1, h2, h3]
    refine ⟨hw, fun h4 => ?_⟩
    have hnone : treeRead host "undefined" = none := by
      unfold treeExists at h4
      cases hr : treeRead host "undefined" with
      | none => rfl
      | some c => rw [hr] at h4; simp at h4
    unfold getProjectConfig readJsonInTree
    rw [hw]
    simp [jsStringOfOpt, hnone]


/-- Shared witness fixture: the identity comment stripper. -/
def stripW : String → String := fun s => s

/-- Shared witness fixture: a tiny concrete parse function standing in
for `JSON.parse`. -/
def parseW : String → Except String Json :=
  fun s => if s = "null" then .ok .null else .error "Unexpected token in JSON"

/-- C2 witness: both branches of `C2_readJsonInTree` at concrete
inputs. -/
theorem C2_witness :
    readJsonInTree stripW parseW [("/angular.json", "null")] "/missing.json" =
      .error (.notFound "/missing.json") ∧
    readJsonInTree stripW parseW [("/angular.json", "null")] "/angular.json" = .ok Json.null :=
  ⟨((C2_readJsonInTree stripW parseW [("/angular.json", "null")] "/missing.json").1
      (by decide)).1,
   ((C2_readJsonInTree stripW parseW [("/angular.json", "null")] "/angular.json").2
      "null" (by decide)).1 Json.null (by rfl)⟩

/-- C3 witness: the create and the overwrite branch of
`C3_updateJsonInTree` at concrete inputs. -/
theorem C3_witness :
    updateJsonInTree stripW parseW "/new.json" (fun j (_ : Unit) => j)
        [("/angular.json", "null")] () =
      .ok (treeCreate [("/angular.json", "null")] "/new.json"
        (serializeJson (Json.obj []))) ∧
    updateJsonInTree stripW parseW "/angular.json" (fun j (_ : Unit) => j)
        [("/angular.json", "null")] () =
      .ok (treeOverwrite [("/angular.json", "null")] "/angular.json"
        (serializeJson Json.null)) :=
  ⟨(C3_updateJsonInTree stripW parseW "/new.json" (fun j (_ : Unit) => j)
      [("/angular.json", "null")] ()).1 (by decide),
   (C3_updateJsonInTree stripW parseW "/angular.json" (fun j (_ : Unit) => j)
      [("/angular.json", "null")] ()).2.1 "null" Json.null (by decide) (by rfl)⟩

/-- C4 witness: ordering between the second and third candidate, and the
none-exists branch including the downstream NotFound. -/
theorem C4_witness :
    getWorkspacePath [("/.angular.json", "y"), ("/angular.json", "x")] = some "/angular.json" ∧
    getWorkspacePath [("/other.json", "x")] = none ∧
    getProjectConfig stripW parseW [("/other.json", "x")] "app" =
      .error (.notFound "undefined") := by
  have h2 := (C4_getWorkspacePath stripW parseW [("/other.json", "x")] "app").2.2.2
    (by decide) (by decide) (by decide)
  exact ⟨(C4_getWorkspacePath stripW parseW [("/.angular.json", "y"), ("/angular.json", "x")]
      "app").2.1 (by decide) (by decide),
    h2.1, h2.2 (by decide)⟩


/-- The project type `'application' | 'library'`. -/
inductive ProjectType where
  | application
  | library

/-- The function `setESLintProjectBasedOnProjectType` from `utils.ts`: the
`parserOptions.project` entries for the given project type (libraries
have no e2e directory). -/
def setESLintProjectBasedOnProjectType (projectRoot : String) (projectType : ProjectType) :
    List String :=
  match projectType with
  | .application =>
    [projectRoot ++ "/tsconfig.app.json",
     projectRoot ++ "/tsconfig.spec.json",
     projectRoot ++ "/e2e/tsconfig.json"]
  | .library =>
    [projectRoot ++ "/tsconfig.lib.json",
     projectRoot ++ "/tsconfig.spec.json"]

/-- The directive/component selector rule entries with the given
selector p, as built by both config builders in `utils.ts`. -/
def selectorRulesJson (p : String) : List (String × Json) :=
  [("@angular-eslint/directive-selector",
     .arr [.str "error",
       .obj [("type", .str "attribute"), ("prefix", .str p), ("style", .str "camelCase")]]),
   ("@angular-eslint/component-selector",
     .arr [.str "error",
       .obj [("type", .str "element"), ("prefix", .str p), ("style", .str "kebab-case")]])]

/-- The function `createRootESLintConfig` from `utils.ts`.  The selector argument is
`string | null`; the source guards with `if (prefix)`, i.e. JavaScript
truthiness, so both `null` and the empty string produce empty rules. -/
def createRootESLintConfig (pfx : Option String) : Json :=
  let codeRules : Json :=
    match pfx with
    | some p => if p = "" then Json.obj [] else Json.obj (selectorRulesJson p)
    | none => Json.obj []
  Json.obj [
    ("root", .bool true),
    ("ignorePatterns", .arr [.str "projects/**/*"]),
    ("overrides", .arr [
      Json.obj [
        ("files", .arr [.str "*.ts"]),
        ("parserOptions", .obj [
          ("project", .arr [.str "tsconfig.json", .str "e2e/tsconfig.json"]),
          ("createDefaultProgram", .bool true)]),
        ("extends", .arr [
          .str "plugin:@angular-eslint/recommended",
          .str "plugin:@angular-eslint/template/process-inline-templates"]),
        ("rules", codeRules)],
      Json.obj [
        ("files", .arr [.str "*.html"]),
        ("extends", .arr [.str "plugin:@angular-eslint/template/recommended"]),
        ("rules", .obj [])]])]

/-- The function `createProjectESLintConfig` from `utils.ts`. -/
def createProjectESLintConfig (rootPath projectRoot : String) (projectType : ProjectType)
    (pfx : String) : Json :=
  Json.obj [
    ("extends", .str (offsetFromRoot rootPath ++ ".eslintrc.json")),
    ("ignorePatterns", .arr [.str "!**/*"]),
    ("overrides", .arr [
      Json.obj [
        ("files", .arr [.str "*.ts"]),
        ("parserOptions", .obj [
          ("project",
            .arr ((setESLintProjectBasedOnProjectType projectRoot projectType).map Json.str)),
          ("createDefaultProgram", .bool true)]),
        ("rules", .obj (selectorRulesJson pfx))],
      Json.obj [
        ("files", .arr [.str "*.html"]),
        ("rules", .obj [])]])]

/-- The workspace-document transformation performed by
`addESLintTargetToProject` in `utils.ts` (the callback it passes to
`updateWorkspaceInTree`): reads `projects[projectName].root`, chooses
`src` for the empty root, and assigns the ESLint target config into the
project architect object under `targetName`.  `none` models the
JavaScript `TypeError` thrown when the document lacks the accessed
shape (no `projects` object, absent project, non-string `root`,
non-object `architect`). -/
def addESLintTargetToProject (projectName targetName : String) (workspaceJson : Json) :
    Option Json :=
  match workspaceJson.getKey "projects" with
  | some (Json.obj projects) =>
    match lookupPairs projects projectName with
    | some existingProjectConfig =>
      match existingProjectConfig.getKey "root" with
      | some (Json.str root) =>
        let lintFilePatternsRoot := if root = "" then "src" else root
        let eslintTargetConfig : Json := Json.obj [
          ("builder", .str "@angular-eslint/builder:lint"),
          ("options", .obj [
            ("lintFilePatterns", .arr [
              .str (lintFilePatternsRoot ++ "/**/*.ts"),
              .str (lintFilePatternsRoot ++ "/**/*.html")])])]
        match existingProjectConfig.getKey "architect" with
        | some (Json.obj architect) =>
          some (workspaceJson.setKey "projects" (Json.obj (setKeyPairs projects projectName
            (existingProjectConfig.setKey "architect"
              (Json.obj (setKeyPairs architect targetName eslintTargetConfig))))))
        | _ => none
      | _ => none
    | _ => none
  | _ => none

/-- Unfolding lemma for `lookupPairs` on a cons cell. -/
theorem lookupPairs_cons (a : String) (b : Json) (rest : List (String × Json)) (key : String) :
    lookupPairs ((a, b) :: rest) key = if a = key then some b else lookupPairs rest key := rfl

/-- The in-place update function of `setKeyPairs` applied to an explicit
pair. -/
theorem mapSetHead (a : String) (b : Json) (k : String) (v : Json) :
    (if (a, b).1 = k then ((a, b).1, v) else (a, b)) = if a = k then (a, v) else (a, b) := rfl

/-- A `List.any` over the keys, split on the head. -/
theorem anyKey_cons (a : String) (b : Json) (rest : List (String × Json)) (k : String) :
    ((a, b) :: rest).any (fun p => p.1 = k) = false ↔
      ¬ a = k ∧ rest.any (fun p => p.1 = k) = false := by
  rw [List.any_cons]
  cases hd : decide (a = k) <;> cases hr : rest.any (fun p => p.1 = k) <;>
    simp_all

/-- Setting a present key by in-place map then looking it up yields the
new value. -/
theorem lookupPairs_map_set (l : List (String × Json)) (k : String) (v : Json)
    (h : l.any (fun p => p.1 = k) = true) :
    lookupPairs (l.map (fun p => if p.1 = k then (p.1, v) else p)) k = some v := by
  induction l with
  | nil => simp at h
  | cons p rest ih =>
    obtain ⟨a, b⟩ := p
    simp only [List.any_cons, Bool.or_eq_true, decide_eq_true_eq] at h
    rw [List.map_cons, mapSetHead]
    by_cases hp : a = k
    · rw [if_pos hp, lookupPairs_cons, if_pos hp]
    · rw [if_neg hp, lookupPairs_cons, if_neg hp]
      exact ih (by tauto)

/-- Appending a fresh key then looking it up yields the new value. -/
theorem lookupPairs_append_fresh (l : List (String × Json)) (k : String) (v : Json)
    (h : l.any (fun p => p.1 = k) = false) :
    lookupPairs (l ++ [(k, v)]) k = some v := by
  induction l with
  | nil => rw [List.nil_append, lookupPairs_cons, if_pos rfl]
  | cons p rest ih =>
    obtain ⟨a, b⟩ := p
    rw [anyKey_cons] at h
    rw [List.cons_append, lookupPairs_cons, if_neg h.1]
    exact ih h.2

/-- Assignment then lookup of the same key yields the assigned value. -/
theorem lookupPairs_setKeyPairs_self (l : List (String × Json)) (k : String) (v : Json) :
    lookupPairs (setKeyPairs l k v) k = some v := by
  unfold setKeyPairs
  by_cases h : l.any (fun p => p.1 = k)
  · rw [if_pos h]
    exact lookupPairs_map_set l k v h
  · rw [if_neg h]
    refine lookupPairs_append_fresh l k v ?_
    revert h
    cases l.any (fun p => p.1 = k) <;> simp

/-- In-place map assignment leaves every other key's lookup unchanged. -/
theorem lookupPairs_map_set_other (l : List (String × Json)) (k k' : String) (v : Json)
    (hne : k' ≠ k) :
    lookupPairs (l.map (fun p => if p.1 = k then (p.1, v) else p)) k' = lookupPairs l k' := by
  induction l with
  | nil => rfl
  | cons p rest ih =>
    obtain ⟨a, b⟩ := p
    rw [List.map_cons, mapSetHead]
    by_cases hp : a = k
    · have hak : ¬ a = k' := fun hh => hne (hh ▸ hp ▸ rfl)
      rw [if_pos hp, lookupPairs_cons, lookupPairs_cons, if_neg (hp ▸ hak), if_neg hak, ih]
    · rw [if_neg hp, lookupPairs_cons, lookupPairs_cons, ih]

/-- Appending a fresh key leaves every other key's lookup unchanged. -/
theorem lookupPairs_append_single_other (l : List (String × Json)) (k k' : String) (v : Json)
    (hne : k' ≠ k) :
    lookupPairs (l ++ [(k, v)]) k' = lookupPairs l k' := by
  induction l with
  | nil => rw [List.nil_append, lookupPairs_cons, if_neg (fun hh => hne hh.symm)]
  | cons p rest ih =>
    obtain ⟨a, b⟩ := p
    rw [List.cons_append, lookupPairs_cons, lookupPairs_cons, ih]

/-- Assignment leaves lookups of every other key unchanged. -/
theorem lookupPairs_setKeyPairs_other (l : List (String × Json)) (k k' : String) (v : Json)
    (hne : k' ≠ k) :
    lookupPairs (setKeyPairs l k v) k' = lookupPairs l k' := by
  unfold setKeyPairs
  by_cases h : l.any (fun p => p.1 = k)
  · rw [if_pos h]
    exact lookupPairs_map_set_other l k k' v hne
  · rw [if_neg h]
    exact lookupPairs_append_single_other l k k' v hne

/-- Access `Json.getKey` on an object is `lookupPairs`. -/
theorem getKey_obj (l : List (String × Json)) (k : String) :
    (Json.obj l).getKey k = lookupPairs l k := rfl

/-- Object property assignment then access of the same key. -/
theorem getKey_setKey_self (entries : List (String × Json)) (k : String) (v : Json) :
    (Json.setKey (Json.obj entries) k v).getKey k = some v := by
  simp [Json.setKey, Json.getKey, lookupPairs_setKeyPairs_self]

/-- Object property assignment leaves other keys' access unchanged. -/
theorem getKey_setKey_other (entries : List (String × Json)) (k k' : String) (v : Json)
    (hne : k' ≠ k) :
    (Json.setKey (Json.obj entries) k v).getKey k' = (Json.obj entries).getKey k' := by
  simp [Json.setKey, Json.getKey, lookupPairs_setKeyPairs_other _ _ _ _ hne]

/-- C5: for a project with a string `root` and an `architect` object,
`addESLintTargetToProject` writes under `architect[targetName]` the
ESLint builder target whose `lintFilePatterns` are rooted at `src` when
the project root is empty and at the project root otherwise. -/
theorem C5_addESLintTargetToProject (projectName targetName : String) (w : Json)
    (projects : List (String × Json)) (proj : Json) (root : String)
    (architect : List (String × Json))
    (htn : targetName = "eslint" ∨ targetName = "lint")
    (hp : w.getKey "projects" = some (Json.obj projects))
    (hproj : lookupPairs projects projectName = some proj)
    (hroot : proj.getKey "root" = some (Json.str root))
    (harch : proj.getKey "architect" = some (Json.obj architect)) :
    ∃ w', addESLintTargetToProject projectName targetName w = some w' ∧
      w'.getPath ["projects", projectName, "architect", targetName] =
        some (Json.obj [
          ("builder", Json.str "@angular-eslint/builder:lint"),
          ("options", Json.obj [
            ("lintFilePatterns", Json.arr [
              Json.str ((if root = "" then "src" else root) ++ "/**/*.ts"),
              Json.str ((if root = "" then "src" else root) ++ "/**/*.html")])])]) := by
  cases w with
  | obj entries =>
    cases proj with
    | obj pentries =>
      refine ⟨Json.setKey (Json.obj entries) "projects" (Json.obj (setKeyPairs projects
          projectName (Json.setKey (Json.obj pentries) "architect"
            (Json.obj (setKeyPairs architect targetName (Json.obj [
              ("builder", Json.str "@angular-eslint/builder:lint"),
              ("options", Json.obj [
                ("lintFilePatterns", Json.arr [
                  Json.str ((if root = "" then "src" else root) ++ "/**/*.ts"),
                  Json.str ((if root = "" then "src" else root) ++ "/**/*.html")])])])))))),
        ?_, ?_⟩
      · unfold addESLintTargetToProject
        rw [hp]
        simp only [hproj, hroot, harch]
      · simp only [Json.getPath, getKey_setKey_self, getKey_obj, lookupPairs_setKeyPairs_self]
    | null => simp [Json.getKey] at hroot
    | bool b => simp [Json.getKey] at hroot
    | num n => simp [Json.getKey] at hroot
    | str s => simp [Json.getKey] at hroot
    | arr xs => simp [Json.getKey] at hroot
  | null => simp [Json.getKey] at hp
  | bool b => simp [Json.getKey] at hp
  | num n => simp [Json.getKey] at hp
  | str s => simp [Json.getKey] at hp
  | arr xs => simp [Json.getKey] at hp


/-- C10: the document transformation of `addESLintTargetToProject`
changes `projects[projectName].architect[targetName]` only: every other
top-level key, every other project, every other field of the named
project (its `root`, `projectType` and `prefix` among them), and every
other architect target keep their values. -/
theorem C10_addESLintTargetToProject_frame (projectName targetName : String) (w : Json)
    (projects : List (String × Json)) (proj : Json) (root : String)
    (architect : List (String × Json))
    (hp : w.getKey "projects" = some (Json.obj projects))
    (hproj : lookupPairs projects projectName = some proj)
    (hroot : proj.getKey "root" = some (Json.str root))
    (harch : proj.getKey "architect" = some (Json.obj architect)) :
    ∃ w', addESLintTargetToProject projectName targetName w = some w' ∧
      (∀ k, k ≠ "projects" → w'.getKey k = w.getKey k) ∧
      ∃ projects', w'.getKey "projects" = some (Json.obj projects') ∧
        (∀ n, n ≠ projectName → lookupPairs projects' n = lookupPairs projects n) ∧
        ∃ proj', lookupPairs projects' projectName = some proj' ∧
          (∀ f, f ≠ "architect" → proj'.getKey f = proj.getKey f) ∧
          ∃ architect', proj'.getKey "architect" = some (Json.obj architect') ∧
            (∀ t, t ≠ targetName → lookupPairs architect' t = lookupPairs architect t) := by
  cases w with
  | obj entries =>
    cases proj with
    | obj pentries =>
      have hrun : addESLintTargetToProject projectName targetName (Json.obj entries) =
          some (Json.setKey (Json.obj entries) "projects" (Json.obj (setKeyPairs projects
            projectName (Json.setKey (Json.obj pentries) "architect"
              (Json.obj (setKeyPairs architect targetName (Json.obj [
                ("builder", Json.str "@angular-eslint/builder:lint"),
                ("options", Json.obj [
                  ("lintFilePatterns", Json.arr [
                    Json.str ((if root = "" then "src" else root) ++ "/**/*.ts"),
                    Json.str ((if root = "" then "src" else root) ++ "/**/*.html")])])]))))))) := by
        unfold addESLintTargetToProject
        rw [hp]
        simp only [hproj, hroot, harch]
      refine ⟨_, hrun, fun k hk => getKey_setKey_other entries "projects" k _ hk,
        _, getKey_setKey_self _ _ _,
        fun n hn => lookupPairs_setKeyPairs_other _ _ _ _ hn,
        _, lookupPairs_setKeyPairs_self _ _ _,
        fun f hf => getKey_setKey_other pentries "architect" f _ hf,
        _, getKey_setKey_self _ _ _,
        fun t ht => lookupPairs_setKeyPairs_other _ _ _ _ ht⟩
    | null => simp [Json.getKey] at hroot
    | bool b => simp [Json.getKey] at hroot
    | num n => simp [Json.getKey] at hroot
    | str s => simp [Json.getKey] at hroot
    | arr xs => simp [Json.getKey] at hroot
  | null => simp [Json.getKey] at hp
  | bool b => simp [Json.getKey] at hp
  | num n => simp [Json.getKey] at hp
  | str s => simp [Json.getKey] at hp
  | arr xs => simp [Json.getKey] at hp

/-- Shared witness fixture: a small workspace document with two
projects. -/
def wsW : Json := Json.obj [
  ("version", .num 1),
  ("projects", .obj [
    ("app1", .obj [
      ("root", .str ""),
      ("projectType", .str "application"),
      ("prefix", .str "app"),
      ("architect", .obj [("build", .str "b")])]),
    ("lib1", .obj [
      ("root", .str "libs/foo"),
      ("projectType", .str "library"),
      ("prefix", .str "lib"),
      ("architect", .obj [])])])]

/-- C5 witness: the root-level project (`root = ""`) gets patterns
rooted at `src`, under the `lint` target name. -/
theorem C5_witness :
    ∃ w', addESLintTargetToProject "app1" "lint" wsW = some w' ∧
      w'.getPath ["projects", "app1", "architect", "lint"] =
        some (Json.obj [
          ("builder", Json.str "@angular-eslint/builder:lint"),
          ("options", Json.obj [
            ("lintFilePatterns", Json.arr [
              Json.str ((if "" = "" then "src" else "") ++ "/**/*.ts"),
              Json.str ((if "" = "" then "src" else "") ++ "/**/*.html")])])]) :=
  C5_addESLintTargetToProject "app1" "lint" wsW
    [("app1", .obj [
      ("root", .str ""),
      ("projectType", .str "application"),
      ("prefix", .str "app"),
      ("architect", .obj [("build", .str "b")])]),
     ("lib1", .obj [
      ("root", .str "libs/foo"),
      ("projectType", .str "library"),
      ("prefix", .str "lib"),
      ("architect", .obj [])])]
    (Json.obj [
      ("root", .str ""),
      ("projectType", .str "application"),
      ("prefix", .str "app"),
      ("architect", .obj [("build", .str "b")])])
    "" [("build", .str "b")] (Or.inr rfl) rfl rfl rfl rfl

/-- C10 witness: the frame theorem applied to the `lib1` project under
the `eslint` target name. -/
theorem C10_witness :
    ∃ w', addESLintTargetToProject "lib1" "eslint" wsW = some w' ∧
      (∀ k, k ≠ "projects" → w'.getKey k = wsW.getKey k) ∧
      ∃ projects', w'.getKey "projects" = some (Json.obj projects') ∧
        (∀ n, n ≠ "lib1" → lookupPairs projects' n = lookupPairs [
          ("app1", Json.obj [
            ("root", Json.str ""),
            ("projectType", Json.str "application"),
            ("prefix", Json.str "app"),
            ("architect", Json.obj [("build", Json.str "b")])]),
          ("lib1", Json.obj [
            ("root", Json.str "libs/foo"),
            ("projectType", Json.str "library"),
            ("prefix", Json.str "lib"),
            ("architect", Json.obj [])])] n) ∧
        ∃ proj', lookupPairs projects' "lib1" = some proj' ∧
          (∀ f, f ≠ "architect" → proj'.getKey f = (Json.obj [
            ("root", Json.str "libs/foo"),
            ("projectType", Json.str "library"),
            ("prefix", Json.str "lib"),
            ("architect", Json.obj [])]).getKey f) ∧
          ∃ architect', proj'.getKey "architect" = some (Json.obj architect') ∧
            (∀ t, t ≠ "eslint" → lookupPairs architect' t = lookupPairs [] t) :=
  C10_addESLintTargetToProject_frame "lib1" "eslint" wsW
    [("app1", .obj [
      ("root", .str ""),
      ("projectType", .str "application"),
      ("prefix", .str "app"),
      ("architect", .obj [("build", .str "b")])]),
     ("lib1", .obj [
      ("root", .str "libs/foo"),
      ("projectType", .str "library"),
      ("prefix", .str "lib"),
      ("architect", .obj [])])]
    (Json.obj [
      ("root", .str "libs/foo"),
      ("projectType", .str "library"),
      ("prefix", .str "lib"),
      ("architect", .obj [])])
    "libs/foo" [] rfl rfl rfl rfl


/-- C6: the per-project config builder points `extends` at the root
config via `offsetFromRoot`, sets `ignorePatterns` to `["!**/*"]`, and
fills the `*.ts` override's `parserOptions.project` with the tsconfig
references for the project type: app/spec/e2e for an application,
lib/spec for a library. -/
theorem C6_createProjectESLintConfig (rootPath projectRoot : String)
    (projectType : ProjectType) (pfx : String) :
    (createProjectESLintConfig rootPath projectRoot projectType pfx).getKey "extends" =
      some (Json.str (offsetFromRoot rootPath ++ ".eslintrc.json")) ∧
    (createProjectESLintConfig rootPath projectRoot projectType pfx).getKey "ignorePatterns" =
      some (Json.arr [Json.str "!**/*"]) ∧
    (((createProjectESLintConfig rootPath projectRoot projectType pfx).getKey
        "overrides").bind (fun o => o.item 0)).bind
      (fun o => o.getPath ["parserOptions", "project"]) =
      some (Json.arr ((setESLintProjectBasedOnProjectType projectRoot projectType).map
        Json.str)) ∧
    (projectType = ProjectType.application →
      setESLintProjectBasedOnProjectType projectRoot projectType =
        [projectRoot ++ "/tsconfig.app.json",
         projectRoot ++ "/tsconfig.spec.json",
         projectRoot ++ "/e2e/tsconfig.json"]) ∧
    (projectType = ProjectType.library →
      setESLintProjectBasedOnProjectType projectRoot projectType =
        [projectRoot ++ "/tsconfig.lib.json",
         projectRoot ++ "/tsconfig.spec.json"]) := by
  refine ⟨rfl, rfl, rfl, fun h => ?_, fun h => ?_⟩
  · subst h
    rfl
  · subst h
    rfl

/-- C6 witness: both project types at concrete roots. -/
theorem C6_witness :
    setESLintProjectBasedOnProjectType "libs/foo" ProjectType.library =
      ["libs/foo" ++ "/tsconfig.lib.json", "libs/foo" ++ "/tsconfig.spec.json"] ∧
    setESLintProjectBasedOnProjectType "apps/bar" ProjectType.application =
      ["apps/bar" ++ "/tsconfig.app.json", "apps/bar" ++ "/tsconfig.spec.json",
       "apps/bar" ++ "/e2e/tsconfig.json"] :=
  ⟨(C6_createProjectESLintConfig "" "libs/foo" ProjectType.library "lib").2.2.2.2 rfl,
   (C6_createProjectESLintConfig "" "apps/bar" ProjectType.application "app").2.2.2.1 rfl⟩


/-- C7 counterexample: the empty string is a non-null selector value,
yet `if (prefix)` is false for it (JavaScript truthiness), so
`createRootESLintConfig (some "")` carries no directive-selector rule at
all — the claim's "every non-null prefix" fails at the empty string. -/
theorem C7_counterexample :
    (some "" : Option String) ≠ none ∧
    (((createRootESLintConfig (some "")).getKey "overrides").bind (fun o => o.item 0)).bind
      (fun o => o.getKey "rules") = some (Json.obj []) ∧
    (((createRootESLintConfig (some "")).getKey "overrides").bind (fun o => o.item 0)).bind
      (fun o => o.getPath ["rules", "@angular-eslint/directive-selector"]) = none := by
  refine ⟨by decide, rfl, rfl⟩

/-- C7 (amended): the root config always has `root: true` and
`ignorePatterns: ["projects/**/*"]`; the `*.ts` override's rules are
empty for a `null` selector value and for the (falsy) empty string, and
for every non-empty selector value they are exactly the attribute/
camelCase directive rule and the element/kebab-case component rule. -/
theorem C7_createRootESLintConfig (pfx : Option String) :
    (createRootESLintConfig pfx).getKey "root" = some (Json.bool true) ∧
    (createRootESLintConfig pfx).getKey "ignorePatterns" =
      some (Json.arr [Json.str "projects/**/*"]) ∧
    (pfx = none →
      (((createRootESLintConfig pfx).getKey "overrides").bind (fun o => o.item 0)).bind
        (fun o => o.getKey "rules") = some (Json.obj [])) ∧
    (pfx = some "" →
      (((createRootESLintConfig pfx).getKey "overrides").bind (fun o => o.item 0)).bind
        (fun o => o.getKey "rules") = some (Json.obj [])) ∧
    (∀ p, pfx = some p → p ≠ "" →
      (((createRootESLintConfig pfx).getKey "overrides").bind (fun o => o.item 0)).bind
        (fun o => o.getKey "rules") =
        some (Json.obj [
          ("@angular-eslint/directive-selector", Json.arr [Json.str "error",
            Json.obj [("type", Json.str "attribute"), ("prefix", Json.str p),
              ("style", Json.str "camelCase")]]),
          ("@angular-eslint/component-selector", Json.arr [Json.str "error",
            Json.obj [("type", Json.str "element"), ("prefix", Json.str p),
              ("style", Json.str "kebab-case")]])])) := by
  cases pfx with
  | none =>
    refine ⟨rfl, rfl, fun _ => rfl, fun h => ?_, fun p h hq => ?_⟩
    · exact nomatch h
    · exact nomatch h
  | some p =>
    by_cases hp : p = ""
    · subst hp
      refine ⟨rfl, rfl, fun h => ?_, fun _ => rfl, fun q h hq => ?_⟩
      · exact nomatch h
      · exact absurd (Option.some.inj h).symm hq
    · refine ⟨rfl, rfl, fun h => ?_, fun h => absurd (Option.some.inj h) hp,
        fun q h hq => ?_⟩
      · exact nomatch h
      obtain rfl : p = q := Option.some.inj h
      simp only [createRootESLintConfig, if_neg hp]
      rfl

/-- C7 witness: a concrete non-empty selector value. -/
theorem C7_witness :
    (((createRootESLintConfig (some "app")).getKey "overrides").bind (fun o => o.item 0)).bind
      (fun o => o.getKey "rules") =
      some (Json.obj [
        ("@angular-eslint/directive-selector", Json.arr [Json.str "error",
          Json.obj [("type", Json.str "attribute"), ("prefix", Json.str "app"),
            ("style", Json.str "camelCase")]]),
        ("@angular-eslint/component-selector", Json.arr [Json.str "error",
          Json.obj [("type", Json.str "element"), ("prefix", Json.str "app"),
            ("style", Json.str "kebab-case")]])]) :=
  (C7_createRootESLintConfig (some "app")).2.2.2.2 "app" rfl (by decide)


/-- A directory of the virtual tree, as the schematics `DirEntry`
exposes it: the names of the files directly in it (`subfiles`) and the
named subdirectories (`subdirs`). -/
inductive VDir where
  | mk (subfiles : List String) (subdirs : List (String × VDir))

/-- Model of `dir.subfiles`. -/
def VDir.subfiles : VDir → List String
  | .mk fs _ => fs

/-- Model of `dir.subdirs` paired with the subdirectory entries themselves. -/
def VDir.subdirs : VDir → List (String × VDir)
  | .mk _ ds => ds

/-- The function `allFilesInDirInHost` from `utils.ts`.  Paths are modelled as
segment lists, so `join(path, p)` is `path ++ [p]` and
`host.getDir(join(path, p))` is the subdirectory entry `p` of the
current directory.  The files directly in the directory come first;
when `recursive` is set (the recursive calls pass the default options,
which are recursive) the recursively collected files of each
subdirectory follow in subdirectory order. -/
def allFilesInDirInHost (path : List String) (d : VDir) (recursive : Bool) :
    List (List String) :=
  match d with
  | .mk subfiles subdirs =>
    let res := subfiles.map (fun p => path ++ [p])
    if !recursive then res
    else res ++ (subdirs.attach.map (fun e =>
      allFilesInDirInHost (path ++ [e.1.1]) e.1.2 true)).flatten
termination_by sizeOf d
decreasing_by
  have h1 := List.sizeOf_lt_of_mem e.2
  have h2 : sizeOf e.1.2 < sizeOf e.1 := by
    rcases e with ⟨⟨a, b⟩, hm⟩
    simp only [Prod.mk.sizeOf_spec]
    omega
  simp only [VDir.mk.sizeOf_spec]
  omega

/-- The relative segment paths of the files reachable under a
directory: a direct file, or a file reachable under a subdirectory. -/
inductive IsReachableFile : VDir → List String → Prop
  | direct {fs ds name} : name ∈ fs → IsReachableFile (.mk fs ds) [name]
  | nested {fs ds name sub rest} : (name, sub) ∈ ds → IsReachableFile sub rest →
      IsReachableFile (.mk fs ds) (name :: rest)

/-- Well-formedness of a directory, as a real filesystem guarantees it:
distinct file names, distinct subdirectory names, recursively. -/
inductive WFDir : VDir → Prop
  | mk {fs : List String} {ds : List (String × VDir)} : fs.Nodup →
      (ds.map Prod.fst).Nodup → (∀ e ∈ ds, WFDir e.2) → WFDir (.mk fs ds)

/-- Induction principle for `VDir` through the nested subdirectory
list. -/
theorem VDir.induct {motive : VDir → Prop}
    (h : ∀ fs ds, (∀ e ∈ ds, motive e.2) → motive (.mk fs ds)) :
    ∀ d, motive d
  | .mk fs ds => h fs ds (fun e he => VDir.induct h e.2)
termination_by d => sizeOf d
decreasing_by
  have h1 := List.sizeOf_lt_of_mem he
  have h2 : sizeOf e.2 < sizeOf e := by
    rcases e with ⟨a, b⟩
    simp only [Prod.mk.sizeOf_spec]
    omega
  simp only [VDir.mk.sizeOf_spec]
  omega

/-- Recursive listing contains exactly the reachable files, as full
paths. -/
theorem mem_allFiles (d : VDir) :
    ∀ (path f : List String),
      f ∈ allFilesInDirInHost path d true ↔
        ∃ rel, IsReachableFile d rel ∧ f = path ++ rel := by
  induction d using VDir.induct with
  | h fs ds ih =>
    intro path f
    rw [allFilesInDirInHost]
    simp only [Bool.not_true, Bool.false_eq_true, if_false, List.mem_append,
      List.mem_map, List.mem_flatten]
    constructor
    · rintro (⟨n, hn, hf⟩ | ⟨l, ⟨e, he, hl⟩, hfl⟩)
      · exact ⟨[n], IsReachableFile.direct hn, hf.symm⟩
      · subst hl
        obtain ⟨rel, hr, heq⟩ := (ih e.1 e.2 (path ++ [e.1.1]) f).mp hfl
        refine ⟨e.1.1 :: rel, IsReachableFile.nested e.2 hr, ?_⟩
        rw [heq, List.append_assoc]
        rfl
    · rintro ⟨rel, hr, hf⟩
      cases hr with
      | direct hn => exact Or.inl ⟨_, hn, hf.symm⟩
      | @nested fs2 ds2 name sub rest hmem hsub =>
        refine Or.inr ⟨allFilesInDirInHost (path ++ [name]) sub true,
          ⟨⟨(name, sub), hmem⟩, List.mem_attach _ _, rfl⟩, ?_⟩
        refine (ih (name, sub) hmem (path ++ [name]) f).mpr ⟨rest, hsub, ?_⟩
        rw [hf, List.append_assoc]
        rfl


/-- A reachable relative path is never empty. -/
theorem reachable_ne_nil {d : VDir} {rel : List String} (h : IsReachableFile d rel) :
    rel ≠ [] := by
  cases h <;> simp

/-- Recursive listing of a well-formed directory has no duplicates. -/
theorem nodup_allFiles (d : VDir) :
    WFDir d → ∀ path : List String, (allFilesInDirInHost path d true).Nodup := by
  induction d using VDir.induct with
  | h fs ds ih =>
    intro hwf path
    rcases hwf with ⟨hfs, hds, hsub⟩
    rw [allFilesInDirInHost]
    simp only [Bool.not_true, Bool.false_eq_true, if_false]
    have hresnd : (fs.map (fun p => path ++ [p])).Nodup := by
      refine hfs.map ?_
      intro a b hab
      simpa using List.append_cancel_left hab
    have hflnd : ((ds.attach.map (fun e =>
        allFilesInDirInHost (path ++ [e.1.1]) e.1.2 true)).flatten).Nodup := by
      rw [List.nodup_flatten]
      constructor
      · rintro l hl
        rw [List.mem_map] at hl
        obtain ⟨e, he, rfl⟩ := hl
        exact ih e.1 e.2 (hsub e.1 e.2) (path ++ [e.1.1])
      · rw [List.map_attach, List.pairwise_pmap]
        have hpw : ds.Pairwise (fun a b => a.1 ≠ b.1) := by
          have := List.pairwise_map.mp hds
          exact this
        refine hpw.imp ?_
        intro a b hne h1 h2 f hf1 hf2
        obtain ⟨r1, hr1, he1⟩ := (mem_allFiles a.2 (path ++ [a.1]) f).mp hf1
        obtain ⟨r2, hr2, he2⟩ := (mem_allFiles b.2 (path ++ [b.1]) f).mp hf2
        have hcomb := he1.symm.trans he2
        rw [List.append_assoc, List.append_assoc] at hcomb
        have hc := List.append_cancel_left hcomb
        simp only [List.singleton_append, List.cons.injEq] at hc
        exact hne hc.1
    refine List.Nodup.append hresnd hflnd ?_
    intro f hf1 hf2
    rw [List.mem_map] at hf1
    obtain ⟨n, hn, rfl⟩ := hf1
    rw [List.mem_flatten] at hf2
    obtain ⟨l, hl, hfl⟩ := hf2
    rw [List.mem_map] at hl
    obtain ⟨e, he, rfl⟩ := hl
    obtain ⟨rel, hr, heq⟩ := (mem_allFiles e.1.2 (path ++ [e.1.1]) _).mp hfl
    rw [List.append_assoc] at heq
    have hc := List.append_cancel_left heq
    have hlen : ([n] : List String).length = ([e.1.1] ++ rel).length :=
      congrArg List.length hc
    simp only [List.length_singleton, List.length_append] at hlen
    have hnil : rel = [] := List.length_eq_zero.mp (by omega)
    exact reachable_ne_nil hr hnil

/-- Non-recursive listing is exactly the direct files. -/
theorem allFiles_nonrec (path : List String) (fs : List String)
    (ds : List (String × VDir)) :
    allFilesInDirInHost path (.mk fs ds) false = fs.map (fun n => path ++ [n]) := by
  rw [allFilesInDirInHost]
  simp

/-- C8: recursive listing returns exactly the reachable files as full
paths (each exactly once on a well-formed directory); non-recursive
listing returns exactly the direct files, nothing from
subdirectories. -/
theorem C8_allFilesInDirInHost (path : List String) (d : VDir) :
    (∀ f, f ∈ allFilesInDirInHost path d true ↔
      ∃ rel, IsReachableFile d rel ∧ f = path ++ rel) ∧
    (WFDir d → (allFilesInDirInHost path d true).Nodup) ∧
    (∀ f, f ∈ allFilesInDirInHost path d false ↔
      ∃ n ∈ d.subfiles, f = path ++ [n]) := by
  refine ⟨fun f => mem_allFiles d path f, fun h => nodup_allFiles d h path, fun f => ?_⟩
  cases d with
  | mk fs ds =>
    rw [allFiles_nonrec]
    simp only [VDir.subfiles, List.mem_map]
    constructor
    · rintro ⟨n, hn, rfl⟩
      exact ⟨n, hn, rfl⟩
    · rintro ⟨n, hn, rfl⟩
      exact ⟨n, hn, rfl⟩

/-- Witness fixture directory: one direct file and one subdirectory
with two files. -/
def exDir : VDir := .mk ["a.ts"] [("sub", .mk ["b.ts", "c.ts"] [])]

/-- C8 witness: the theorem applied at a concrete directory, its
well-formedness hypothesis discharged. -/
theorem C8_witness :
    (allFilesInDirInHost ["apps"] exDir true).Nodup ∧
    (["apps", "a.ts"] ∈ allFilesInDirInHost ["apps"] exDir true ↔
      ∃ rel, IsReachableFile exDir rel ∧ ["apps", "a.ts"] = ["apps"] ++ rel) := by
  have hwf : WFDir exDir := by
    refine WFDir.mk (by decide) (by decide) ?_
    intro e he
    simp only [exDir, List.mem_singleton] at he
    rw [he]
    exact WFDir.mk (by decide) (by decide) (fun e he => by simp at he)
  exact ⟨(C8_allFilesInDirInHost ["apps"] exDir).2.1 hwf,
    (C8_allFilesInDirInHost ["apps"] exDir).1 _⟩


/-- Lexicographic comparison of character lists by code point,
modelling the JavaScript default `Array.prototype.sort()` string
comparison (code-unit order; identical to code-point order on the
basic-plane keys these configs use). -/
def lexLe : List Char → List Char → Bool
  | [], _ => true
  | _ :: _, [] => false
  | a :: xs, b :: ys =>
    if a.toNat < b.toNat then true
    else if b.toNat < a.toNat then false
    else lexLe xs ys

/-- The string order used by the key sort. -/
def strLe (a b : String) : Prop := lexLe a.data b.data = true

instance : DecidableRel strLe :=
  fun a b => inferInstanceAs (Decidable (lexLe a.data b.data = true))

/-- Totality of `lexLe`. -/
theorem lexLe_total : ∀ xs ys : List Char, lexLe xs ys = true ∨ lexLe ys xs = true := by
  intro xs
  induction xs with
  | nil => intro ys; left; rfl
  | cons a xs ih =>
    intro ys
    cases ys with
    | nil => right; rfl
    | cons b ys =>
      by_cases h1 : a.toNat < b.toNat
      · left
        simp [lexLe, h1]
      · by_cases h2 : b.toNat < a.toNat
        · right
          simp [lexLe, h2]
        · rcases ih ys with h | h
          · left
            simp [lexLe, h1, h2, h]
          · right
            simp [lexLe, h1, h2, h]

/-- Transitivity of `lexLe`. -/
theorem lexLe_trans : ∀ xs ys zs : List Char,
    lexLe xs ys = true → lexLe ys zs = true → lexLe xs zs = true := by
  intro xs
  induction xs with
  | nil => intro ys zs h1 h2; rfl
  | cons a xs ih =>
    intro ys zs h1 h2
    cases ys with
    | nil => simp [lexLe] at h1
    | cons b ys =>
      cases zs with
      | nil => simp [lexLe] at h2
      | cons c zs =>
        simp only [lexLe] at h1 h2 ⊢
        by_cases hab : a.toNat < b.toNat
        · by_cases hbc : b.toNat < c.toNat
          · simp [Nat.lt_trans hab hbc]
          · by_cases hcb : c.toNat < b.toNat
            · rw [if_neg hbc, if_pos hcb] at h2
              exact absurd h2 (by simp)
            · have hac : a.toNat < c.toNat := by omega
              simp [hac]
        · by_cases hba : b.toNat < a.toNat
          · rw [if_neg hab, if_pos hba] at h1
            exact absurd h1 (by simp)
          · rw [if_neg hab, if_neg hba] at h1
            by_cases hbc : b.toNat < c.toNat
            · have hac : a.toNat < c.toNat := by omega
              simp [hac]
            · by_cases hcb : c.toNat < b.toNat
              · rw [if_neg hbc, if_pos hcb] at h2
                exact absurd h2 (by simp)
              · rw [if_neg hbc, if_neg hcb] at h2
                have hac1 : ¬ a.toNat < c.toNat := by omega
                have hac2 : ¬ c.toNat < a.toNat := by omega
                rw [if_neg hac1, if_neg hac2]
                exact ih ys zs h1 h2

instance : IsTotal String strLe := ⟨fun a b => lexLe_total a.data b.data⟩

instance : IsTrans String strLe := ⟨fun a b c => lexLe_trans a.data b.data c.data⟩

/-- The function `sortObjectByKeys` from `utils.ts`: sorts `Object.keys(obj)`
(JavaScript default sort, modelled by insertion sort under `strLe`) and
rebuilds the object by `reduce`, each step spreading the accumulator and
adding `key: obj[key]`. -/
def sortObjectByKeys (obj : List (String × Json)) : List (String × Json) :=
  (List.insertionSort strLe (obj.map Prod.fst)).foldl
    (fun result key => setKeyPairs result key ((lookupPairs obj key).getD Json.null)) []

/-- Assigning a fresh key appends. -/
theorem setKeyPairs_fresh (l : List (String × Json)) (k : String) (v : Json)
    (h : ∀ p ∈ l, p.1 ≠ k) :
    setKeyPairs l k v = l ++ [(k, v)] := by
  unfold setKeyPairs
  rw [if_neg]
  simp only [List.any_eq_true, decide_eq_true_eq, not_exists]
  intro p hp
  exact h p hp.1 hp.2

/-- Rebuilding by repeated fresh assignment is a map over the keys. -/
theorem foldl_setKey_eq (f : String → Json) :
    ∀ (ks : List String) (acc : List (String × Json)),
      (∀ p ∈ acc, p.1 ∉ ks) → ks.Nodup →
      ks.foldl (fun result key => setKeyPairs result key (f key)) acc =
        acc ++ ks.map (fun k => (k, f k)) := by
  intro ks
  induction ks with
  | nil => intro acc h hnd; simp
  | cons k rest ih =>
    intro acc h hnd
    rw [List.foldl_cons,
      setKeyPairs_fresh acc k (f k) (fun p hp => fun he => h p hp (he ▸ List.mem_cons_self k rest)),
      ih (acc ++ [(k, f k)]) ?_ (List.nodup_cons.mp hnd).2]
    · simp
    · intro p hp
      rcases List.mem_append.mp hp with hp1 | hp2
      · exact fun hr => h p hp1 (List.mem_cons_of_mem k hr)
      · simp only [List.mem_singleton] at hp2
        subst hp2
        exact (List.nodup_cons.mp hnd).1

/-- On an object with distinct keys, looking up a member pair's key
finds that pair's value. -/
theorem mem_lookup_nodup :
    ∀ (obj : List (String × Json)), (obj.map Prod.fst).Nodup →
      ∀ p ∈ obj, lookupPairs obj p.1 = some p.2 := by
  intro obj
  induction obj with
  | nil => intro _ p hp; simp at hp
  | cons a rest ih =>
    intro hnd p hp
    obtain ⟨a1, a2⟩ := a
    rw [List.map_cons] at hnd
    rcases List.mem_cons.mp hp with rfl | hp2
    · rw [lookupPairs_cons, if_pos rfl]
    · rw [lookupPairs_cons]
      have hne : a1 ≠ p.1 := by
        intro hh
        apply (List.nodup_cons.mp hnd).1
        rw [hh]
        exact List.mem_map.mpr ⟨p, hp2, rfl⟩
      rw [if_neg hne]
      exact ih (List.nodup_cons.mp hnd).2 p hp2

/-- Mapping each pair to its looked-up value reproduces the object. -/
theorem map_lookup_congr (full : List (String × Json)) :
    ∀ (obj : List (String × Json)), (∀ p ∈ obj, lookupPairs full p.1 = some p.2) →
      obj.map (fun p => (p.1, (lookupPairs full p.1).getD Json.null)) = obj := by
  intro obj
  induction obj with
  | nil => intro _; rfl
  | cons p rest ih =>
    intro h
    rw [List.map_cons, h p (List.mem_cons_self p rest),
      ih (fun q hq => h q (List.mem_cons_of_mem p hq))]
    rfl

/-- The rebuild equals a map over the sorted keys. -/
theorem sortObjectByKeys_eq (obj : List (String × Json))
    (h : (obj.map Prod.fst).Nodup) :
    sortObjectByKeys obj = (List.insertionSort strLe (obj.map Prod.fst)).map
      (fun k => (k, (lookupPairs obj k).getD Json.null)) := by
  unfold sortObjectByKeys
  have hnd : (List.insertionSort strLe (obj.map Prod.fst)).Nodup :=
    (List.perm_insertionSort strLe (obj.map Prod.fst)).nodup_iff.mpr h
  simpa using foldl_setKey_eq (fun k => (lookupPairs obj k).getD Json.null)
    (List.insertionSort strLe (obj.map Prod.fst)) [] (by simp) hnd

/-- C9: on an object with distinct keys, `sortObjectByKeys` is a
permutation of the object's key-value pairs whose keys are in
lexicographic order; in particular the two-key example sorts to
`a` before `b` with values preserved. -/
theorem C9_sortObjectByKeys (obj : List (String × Json))
    (h : (obj.map Prod.fst).Nodup) :
    ((sortObjectByKeys obj).map Prod.fst).Sorted strLe ∧
    (sortObjectByKeys obj).Perm obj ∧
    (∀ k v, (k, v) ∈ sortObjectByKeys obj ↔ (k, v) ∈ obj) ∧
    sortObjectByKeys [("b", Json.num 1), ("a", Json.num 2)] =
      [("a", Json.num 2), ("b", Json.num 1)] := by
  have hmapid : (sortObjectByKeys obj).map Prod.fst =
      List.insertionSort strLe (obj.map Prod.fst) := by
    rw [sortObjectByKeys_eq obj h, List.map_map]
    exact List.map_id _
  have hperm : (sortObjectByKeys obj).Perm obj := by
    rw [sortObjectByKeys_eq obj h]
    have h2 := (List.perm_insertionSort strLe (obj.map Prod.fst)).map
      (fun k => (k, (lookupPairs obj k).getD Json.null))
    have h1 : ((obj.map Prod.fst).map
        (fun k => (k, (lookupPairs obj k).getD Json.null))) = obj := by
      rw [List.map_map]
      exact map_lookup_congr obj obj (mem_lookup_nodup obj h)
    rw [h1] at h2
    exact h2
  refine ⟨?_, hperm, fun k v => hperm.mem_iff, rfl⟩
  rw [hmapid]
  exact List.sorted_insertionSort strLe (obj.map Prod.fst)

/-- C9 witness: the theorem at the two-key example object. -/
theorem C9_witness :
    ((sortObjectByKeys [("b", Json.num 1), ("a", Json.num 2)]).map Prod.fst).Sorted strLe ∧
    (sortObjectByKeys [("b", Json.num 1), ("a", Json.num 2)]).Perm
      [("b", Json.num 1), ("a", Json.num 2)] ∧
    sortObjectByKeys [("b", Json.num 1), ("a", Json.num 2)] =
      [("a", Json.num 2), ("b", Json.num 1)] := by
  have hthm := C9_sortObjectByKeys [("b", Json.num 1), ("a", Json.num 2)] (by decide)
  exact ⟨hthm.1, hthm.2.1, hthm.2.2.2⟩

end AngularEslint